import Mathlib

/-!
Shallow embedding of `sage/rings/padics/padic_extension_generic.py`
(`pAdicExtensionGeneric`), the generic superclass of extensions of the
p-adic base rings/fields.

A p-adic ring descriptor is either a base ring (`pAdicBaseGeneric`, external
to the embedded file, kept abstract as a small record) or an extension
descriptor holding the fields that `pAdicExtensionGeneric.__init__` and the
external factory install: the working modulus `_given_poly` (coefficients in
the ground ring), the exact modulus `_exact_modulus`, the precision cap,
the printer configuration, the implementation tag, the precision-type tag,
the field flag and the variable name.  Polynomials are modelled as dense
coefficient lists over `Int`; the ground ring of an extension is the base
ring of its working modulus, folded into the constructor.

External collaborators (the printer's mode-aware comparison, `change` from
`padic_generic`, the algebraic-extension functor, the base-ring coercion of
exact coefficients, the element arithmetic used by `random_element`) are not
part of the embedded file; each is modelled from the specification and
marked as such in its doc comment.
-/

/-- Data of a base (non-extension) p-adic ring `pAdicBaseGeneric`:
prime, precision cap, field flag and precision-type tag. -/
structure BaseData where
  p : Nat
  cap : Nat
  isField : Bool
  precType : String
deriving DecidableEq, Repr

/-- Printer configuration (`pAdicPrinter`): the print-mode state that
`__init__` folds the name tuple into and that `__eq__` compares. -/
structure Printer where
  mode : String
  pos : Bool
  varName : String
  unramName : String
  ramName : String
  maxTerseTerms : Int
deriving DecidableEq, Repr

/-- A dictionary of print-mode overrides, as passed to `fraction_field` /
`integer_ring` (`print_mode` argument): each key optional. -/
structure PrintDict where
  mode : Option String
  pos : Option Bool
  maxTerseTerms : Option Int
deriving DecidableEq, Repr

/-- The empty override dictionary. -/
def PrintDict.empty : PrintDict := ⟨none, none, none⟩

/-- A p-adic ring descriptor: a base ring, or an extension descriptor
(`pAdicExtensionGeneric`) with fields, in order: ground ring (the base ring
of `_given_poly`), `_given_poly` coefficients, `_exact_modulus`
coefficients, precision cap, printer, `_implementation` tag,
`_prec_type()` tag, field flag, variable name. -/
inductive PRing where
  | base (b : BaseData) : PRing
  | ext (groundRing : PRing) (givenPoly : List Int) (exactModulus : List Int)
      (precCap : Nat) (printer : Printer) (impl : String) (precType : String)
      (isField : Bool) (varName : String) : PRing
deriving DecidableEq, Repr

namespace PRing

/-- Whether the descriptor is a base (non-extension) p-adic ring,
i.e. `isinstance(·, pAdicBaseGeneric)`. -/
def isBase : PRing → Bool
  | .base _ => true
  | .ext _ _ _ _ _ _ _ _ _ => false

/-- Whether the descriptor is an extension descriptor,
i.e. `isinstance(·, pAdicExtensionGeneric)`. -/
def isExt : PRing → Bool
  | .base _ => false
  | .ext _ _ _ _ _ _ _ _ _ => true

/-- `ground_ring`: the base ring of `_given_poly` (for an extension).
On a base ring the method does not exist; we return the ring itself. -/
def ground_ring : PRing → PRing
  | .base b => .base b
  | .ext g _ _ _ _ _ _ _ _ => g

/-- `base_ring()`: `pAdicGeneric.__init__` is called with
`R = poly.base_ring()`, so the stored base ring of an extension is its
ground ring. -/
def base_ring : PRing → PRing
  | .base b => .base b
  | .ext g _ _ _ _ _ _ _ _ => g

/-- The `_given_poly` attribute (working modulus coefficients). -/
def givenPolyOf : PRing → List Int
  | .base _ => []
  | .ext _ gp _ _ _ _ _ _ _ => gp

/-- The `_exact_modulus` attribute (exact modulus coefficients, installed
by the external factory). -/
def exactModulusOf : PRing → List Int
  | .base _ => []
  | .ext _ _ em _ _ _ _ _ _ => em

/-- `precision_cap()`. -/
def precCapOf : PRing → Nat
  | .base b => b.cap
  | .ext _ _ _ cap _ _ _ _ _ => cap

/-- The `_printer` attribute. -/
def printerOf : PRing → Printer
  | .base _ => ⟨"series", true, "x", "x", "x", 0⟩
  | .ext _ _ _ _ pr _ _ _ _ => pr

/-- The `_implementation` attribute. -/
def implOf : PRing → String
  | .base _ => ""
  | .ext _ _ _ _ _ im _ _ _ => im

/-- `_prec_type()`: the precision-discipline tag. -/
def precTypeOf : PRing → String
  | .base b => b.precType
  | .ext _ _ _ _ _ _ pt _ _ => pt

/-- `is_field()`. -/
def isFieldOf : PRing → Bool
  | .base b => b.isField
  | .ext _ _ _ _ _ _ _ f _ => f

/-- `variable_name()`: the name `names[0]` passed to `pAdicGeneric.__init__`. -/
def varNameOf : PRing → String
  | .base _ => ""
  | .ext _ _ _ _ _ _ _ _ vn => vn

/-- The prime of the ring: a base ring's prime, or recursively the
ground ring's prime (`poly.base_ring().prime()` in `__init__`). -/
def primeOf : PRing → Nat
  | .base b => b.p
  | .ext g _ _ _ _ _ _ _ _ => primeOf g

end PRing

/-- Degree of a dense coefficient list: index of the last nonzero
coefficient, `-1` for the zero polynomial (the `degree()` method of
polynomials). -/
def polyDegree (l : List Int) : Int :=
  ((l.reverse.dropWhile (fun c => c == 0)).length : Int) - 1

namespace PRing

/-- `degree()`: `self._given_poly.degree()`. -/
def degree (self : PRing) : Int :=
  polyDegree (givenPolyOf self)

/-- `defining_polynomial(exact)`: `_exact_modulus` when `exact`, else
`_given_poly`. -/
def defining_polynomial (self : PRing) (exact : Bool) : List Int :=
  if exact then exactModulusOf self else givenPolyOf self

/-- `modulus(exact)`: alias of `defining_polynomial(exact)`. -/
def modulus (self : PRing) (exact : Bool) : List Int :=
  defining_polynomial self exact

/-- `ground_ring_of_tower()`: recurse through `ground_ring()` until the
ground ring is a base p-adic ring. -/
def ground_ring_of_tower : PRing → PRing
  | .base b => .base b
  | .ext g _ _ _ _ _ _ _ _ => if isBase g then g else ground_ring_of_tower g

/-- Height of the tower of ground rings above the base ring. -/
def towerHeight : PRing → Nat
  | .base _ => 0
  | .ext g _ _ _ _ _ _ _ _ => towerHeight g + 1

/-- Fuel-indexed version of `ground_ring_of_tower`: each recursive
invocation of the method consumes one unit of fuel, so the least
sufficient fuel is the recursion depth. -/
def groundRingOfTowerFuel : Nat → PRing → Option PRing
  | 0, _ => none
  | _ + 1, .base b => some (.base b)
  | fuel + 1, .ext g _ _ _ _ _ _ _ _ =>
      if isBase g then some g else groundRingOfTowerFuel fuel g

end PRing

/-- Modelled from the spec: `pAdicPrinter.richcmp_modes(other, op_EQ)`, the
mode-aware rich comparison of two print-mode configurations (external to the
embedded file).  It compares the mode and the name and sign settings, but a
setting irrelevant to the current mode (here `maxTerseTerms` outside
`terse` mode) does not participate — it is not a raw field-by-field
equality. -/
def richcmpModes (a b : Printer) : Bool :=
  a.mode == b.mode && a.pos == b.pos && a.varName == b.varName &&
    a.unramName == b.unramName && a.ramName == b.ramName &&
    (if a.mode == "terse" then a.maxTerseTerms == b.maxTerseTerms else true)

/-- Modelled from the spec: applying a `print_mode` override dictionary to a
printer configuration, as `change(..., **print_mode)` does (external,
`padic_generic.change`): each present key replaces the current setting. -/
def applyOverride (pr : Printer) (m : PrintDict) : Printer :=
  { pr with
      mode := m.mode.getD pr.mode
      pos := m.pos.getD pr.pos
      maxTerseTerms := m.maxTerseTerms.getD pr.maxTerseTerms }

namespace PRing

/-- Modelled from the spec: `change` from the base generic class (external,
`padic_generic.py`): returns a descriptor identical to `self` but with the
field flag set as requested, applying any print-mode override options. -/
def change (self : PRing) (fieldFlag : Bool) (pm : Option PrintDict) : PRing :=
  match self with
  | .base b => .base { b with isField := fieldFlag }
  | .ext g gp em cap pr im pt _ vn =>
      .ext g gp em cap
        (match pm with
         | none => pr
         | some m => applyOverride pr m)
        im pt fieldFlag vn

/-- `__eq__`: for two extension descriptors, compare `ground_ring()` (with
the ground rings' own equality, recursively this method), the working
defining polynomial `defining_polynomial()` (default `exact=False`, so
`_given_poly`), `precision_cap()` and the printers under `richcmp_modes`
with `op_EQ`.  A non-extension `other` fails the `isinstance` check and
compares unequal; the base/base case models the external base ring
equality structurally. -/
def eqDesc : PRing → PRing → Bool
  | .base a, .base b => a == b
  | .base _, .ext _ _ _ _ _ _ _ _ _ => false
  | .ext _ _ _ _ _ _ _ _ _, .base _ => false
  | .ext g gp _ cap pr _ _ _ _, .ext g2 gp2 _ cap2 pr2 _ _ _ _ =>
      eqDesc g g2 && gp == gp2 && cap == cap2 && richcmpModes pr pr2

/-- `__ne__`: `not self.__eq__(other)`. -/
def neDesc (self other : PRing) : Bool :=
  ! eqDesc self other

/-- `fraction_field(print_mode=None)`: if `self` is a field and
`print_mode is None`, return `self`; otherwise `change(field=True)`, with
the overrides when a dictionary was given. -/
def fraction_field (self : PRing) (pm : Option PrintDict) : PRing :=
  if isFieldOf self && pm.isNone then self
  else
    match pm with
    | none => change self true none
    | some m => change self true (some m)

/-- `integer_ring(print_mode=None)`: if `self` is not a field and
`print_mode is None`, return `self`; otherwise `change(field=False)`, with
the overrides when a dictionary was given. -/
def integer_ring (self : PRing) (pm : Option PrintDict) : PRing :=
  if !isFieldOf self && pm.isNone then self
  else
    match pm with
    | none => change self false none
    | some m => change self false (some m)

end PRing

/-- Outcome of `_coerce_map_from_`: the implicit `None` fall-through
(no coercion), the literal `True`, a backend coercion-map object
`coerce_map(R, self)` tagged with the imported class name, or the
`UnboundLocalError` raised when `return coerce_map(R, self)` runs with no
branch having assigned `coerce_map`. -/
inductive CoerceAnswer where
  | noCoercion : CoerceAnswer
  | accepted : CoerceAnswer
  | coerceMap (cls : String) (domain codomain : PRing) : CoerceAnswer
  | unboundLocal : CoerceAnswer
deriving DecidableEq, Repr

namespace PRing

/-- `_coerce_map_from_(R)`: if `R` is an extension descriptor and
`R.fraction_field() is self` (object identity, modelled as structural
equality of descriptors, justified by the unique-factory memoization),
dispatch on `self._implementation` and `R._prec_type()`; with no matching
branch the final `return coerce_map(R, self)` raises `UnboundLocalError`.
Outside the guard, the method falls through returning `None`. -/
def coerce_map_from (self R : PRing) : CoerceAnswer :=
  if isExt R && (fraction_field R none == self) then
    if implOf self == "NTL" then .accepted
    else if precTypeOf R == "capped-abs" then
      .coerceMap "pAdicCoercion_CA_frac_field" R self
    else if precTypeOf R == "capped-rel" then
      .coerceMap "pAdicCoercion_CR_frac_field" R self
    else if precTypeOf R == "floating-point" then
      .coerceMap "pAdicCoercion_FP_frac_field" R self
    else .unboundLocal
  else .noCoercion

end PRing

/-- The data captured by the `AlgebraicExtensionFunctor` that
`construction()` builds: the list of polynomials, the list of variable
names, the precision keyword, the print-mode dictionary (exported by
`self._printer.dict()`, modelled as the printer record itself) and the
implementation keyword. -/
structure AEF where
  polys : List (List Int)
  names : List String
  prec : Nat
  printMode : Printer
  implTag : String
deriving DecidableEq, Repr

namespace PRing

/-- `construction()`: the pair of the algebraic-extension functor — built
from `defining_polynomial(exact=True)` as a one-element list, the variable
name as a one-element list, the precision cap, the printer dictionary and
the implementation tag — and `base_ring()`. -/
def construction (self : PRing) : AEF × PRing :=
  (⟨[defining_polynomial self true], [varNameOf self], precCapOf self,
    printerOf self, implOf self⟩,
   base_ring self)

/-- Modelled from the spec: the coercion of an exact polynomial's
coefficients into the base ring's precision model (performed externally
when a descriptor is built): each coefficient reduced modulo
`p ^ precision_cap` of the base ring. -/
def approxPoly (base : PRing) (poly : List Int) : List Int :=
  poly.map (fun c => c % ((primeOf base ^ precCapOf base : Nat) : Int))

/-- Modelled from the spec: applying the algebraic-extension functor
(external, `sage.categories.pushout.AlgebraicExtensionFunctor`) to a base
ring: builds the extension descriptor defined by the functor's polynomial
over that base, with the working modulus obtained by coercing the exact
coefficients into the base, and the recorded precision, print mode and
implementation tag. -/
def applyAEF (F : AEF) (base : PRing) : PRing :=
  .ext base (approxPoly base (F.polys.headD [])) (F.polys.headD [])
    F.prec F.printMode F.implTag (precTypeOf base) (isFieldOf base)
    (F.names.headD "x")

/-- Modelled from the spec: the well-formedness guaranteed by the external
factory for every descriptor it produces (`_exact_modulus` is installed
outside the embedded file): the working modulus is the coercion of the
exact modulus into the ground ring's precision model, the exact modulus is
monic (the factory only accepts Eisenstein or unramified defining
polynomials), the prime is at least 2 and the precision cap positive, and
the ground ring is itself well formed. -/
def WF : PRing → Bool
  | .base b => decide (2 ≤ b.p)
  | .ext g gp em _ _ _ _ _ _ =>
      gp == approxPoly g em && em.getLast? == some 1 &&
        decide (2 ≤ primeOf g) && decide (1 ≤ precCapOf g) && WF g

end PRing

/-!
Element arithmetic for `random_element`.  Elements of the extension that
arise as sums `Σ r_i * gen^i` with `i < degree` are represented by their
coefficient vectors with respect to the powers of the generator (no modular
reduction by the defining polynomial occurs for these powers).  The
arithmetic itself lives in the external element classes.
-/

/-- Modelled from the spec: addition of two extension elements given by
coefficient vectors (external element arithmetic); the shorter vector is
padded with zeros.  The empty vector is the integer `0` used as the initial
value of `reduce`. -/
def eAdd : List Nat → List Nat → List Nat
  | [], ys => ys
  | x :: xs, [] => x :: xs
  | x :: xs, y :: ys => (x + y) :: eAdd xs ys

/-- Modelled from the spec: `self.gen() ** i`, the `i`-th power of the
generator, as a coefficient vector (for `i` below the degree no reduction
by the modulus occurs). -/
def genPow (i : Nat) : List Nat :=
  List.replicate i 0 ++ [1]

/-- Modelled from the spec: multiplication of an extension element by a
ground-ring element (external element arithmetic), coefficientwise. -/
def eScale (r : Nat) (x : List Nat) : List Nat :=
  x.map (fun c => r * c)

namespace PRing

/-- `random_element()`: `reduce(lambda x,y: x+y, [ground_ring().random_element()
* gen()**i for i in range(modulus().degree())], 0)`.  The successive draws
from the ground ring's random generator are modelled by the stream `σ`
(the `i`-th comprehension step performs the `i`-th draw). -/
def random_element (σ : Nat → Nat) (self : PRing) : List Nat :=
  ((List.range (polyDegree (modulus self false)).toNat).map
      (fun i => eScale (σ i) (genPow i))).foldl eAdd []

/-- The claimed value of `random_element`: the sum
`Σ i in range d, r_i * gen^i` of the `d` independently drawn ground-ring
elements `r_i = σ i` times the powers of the generator. -/
def specRandomSum (σ : Nat → Nat) : Nat → List Nat
  | 0 => []
  | d + 1 => eAdd (specRandomSum σ d) (eScale (σ d) (genPow d))

end PRing

section Examples

/-- The base ring `Zp(5, 5)` with capped relative precision. -/
def zp5 : BaseData := ⟨5, 5, false, "capped-rel"⟩

/-- A printer configuration used by the concrete examples. -/
def prW : Printer := ⟨"series", true, "w", "w", "w", 0⟩

/-- The running example of the source file: the Eisenstein extension of
`Zp(5,5)` by `x^5 + 75*x^3 - 15*x^2 + 125*x - 5` (dense coefficient list,
constant term first). -/
def wExt : PRing :=
  .ext (.base zp5) (PRing.approxPoly (.base zp5) [-5, 125, -15, 75, 0, 1])
    [-5, 125, -15, 75, 0, 1] 5 prW "FLINT" "capped-rel" false "w"

example : PRing.WF wExt = true := by decide
example : PRing.degree wExt = 5 := by decide
example : PRing.givenPolyOf wExt = [3120, 125, 3110, 75, 0, 1] := by decide
example : PRing.ground_ring_of_tower wExt = .base zp5 := by decide
example : PRing.towerHeight wExt = 1 := by decide

end Examples

section ConcreteDescriptors

/-- The field version of the running example (`W.fraction_field()`). -/
def qW : PRing := PRing.fraction_field wExt none

example : PRing.isFieldOf qW = true := by decide

/-- A non-field extension with the unrecognized precision tag `fixed-mod`. -/
def rFM : PRing :=
  .ext (.base ⟨5, 5, false, "fixed-mod"⟩) [0, 1] [0, 1] 5 prW "FLINT"
    "fixed-mod" false "w"

/-- The fraction field of `rFM`, a descriptor with non-`NTL` backend. -/
def sFM : PRing := PRing.fraction_field rFM none

/-- Same working modulus as `dCE2` but different exact modulus: over
`Zp(5, 2)` both `x` and `x + 25` coerce to the working modulus `x`. -/
def dCE1 : PRing :=
  .ext (.base ⟨5, 2, false, "capped-rel"⟩) [0, 1] [0, 1] 2 prW "NTL"
    "capped-rel" false "w"

/-- Companion of `dCE1` with exact modulus `x + 25`. -/
def dCE2 : PRing :=
  .ext (.base ⟨5, 2, false, "capped-rel"⟩) [0, 1] [25, 1] 2 prW "NTL"
    "capped-rel" false "w"

example : PRing.WF dCE1 = true ∧ PRing.WF dCE2 = true := by decide

/-- A height-two tower: an extension of the running example `wExt`. -/
def wExt2 : PRing :=
  .ext wExt (PRing.approxPoly wExt [0, 1]) [0, 1] 5 prW "FLINT"
    "capped-rel" false "t"

end ConcreteDescriptors

/-- Claim C5: `fraction_field` with no print-mode override is idempotent,
and on a descriptor that is already a field it returns the descriptor
itself. -/
theorem fraction_field_idempotent (d : PRing) :
    PRing.fraction_field (PRing.fraction_field d none) none =
        PRing.fraction_field d none ∧
      (PRing.isFieldOf d = true → PRing.fraction_field d none = d) := by
  cases d with
  | base b =>
      cases hb : b.isField <;>
        simp [PRing.fraction_field, PRing.change, PRing.isFieldOf, hb]
  | ext g gp em cap pr im pt f vn =>
      cases f <;>
        simp [PRing.fraction_field, PRing.change, PRing.isFieldOf]

/-- Witness for C5 at the concrete field descriptor `qW`. -/
theorem fraction_field_idempotent_witness :
    PRing.fraction_field (PRing.fraction_field qW none) none =
        PRing.fraction_field qW none ∧
      PRing.fraction_field qW none = qW :=
  ⟨(fraction_field_idempotent qW).1,
   (fraction_field_idempotent qW).2 (by decide)⟩

/-- Claim C6: `integer_ring` with no print-mode override on a non-field
descriptor returns the descriptor itself. -/
theorem integer_ring_nonfield_id (d : PRing)
    (h : PRing.isFieldOf d = false) :
    PRing.integer_ring d none = d := by
  simp [PRing.integer_ring, h]

/-- Witness for C6 at the concrete non-field descriptor `wExt`. -/
theorem integer_ring_nonfield_id_witness :
    PRing.isFieldOf wExt = false ∧ PRing.integer_ring wExt none = wExt :=
  ⟨by decide, integer_ring_nonfield_id wExt (by decide)⟩

/-- Claim C10: on a descriptor that is already a field, any non-`None`
print-mode dictionary — the empty one included — bypasses the return-self
fast path and the result is computed by `change(field=True, **m)`; only
the argument `None` takes the fast path and returns the descriptor
itself. -/
theorem fraction_field_override_bypass (d : PRing) (m : PrintDict)
    (h : PRing.isFieldOf d = true) :
    PRing.fraction_field d (some m) = PRing.change d true (some m) ∧
      PRing.fraction_field d none = d := by
  constructor
  · simp [PRing.fraction_field]
  · simp [PRing.fraction_field, h]

/-- Witness for C10 at the concrete field descriptor `qW` with the empty
override dictionary. -/
theorem fraction_field_override_bypass_witness :
    PRing.isFieldOf qW = true ∧
      PRing.fraction_field qW (some PrintDict.empty) =
        PRing.change qW true (some PrintDict.empty) ∧
      PRing.fraction_field qW none = qW :=
  ⟨by decide,
   (fraction_field_override_bypass qW PrintDict.empty (by decide)).1,
   (fraction_field_override_bypass qW PrintDict.empty (by decide)).2⟩

/-- Counterexample to claim C2: at the concrete pair `(sFM, rFM)` all the
claim's conditions hold — `rFM` is an extension descriptor whose fraction
field is `sFM`, `sFM`'s backend is not `NTL`, and `rFM`'s precision tag
`fixed-mod` matches none of the three recognized tags — yet the call does
not complete with "no coercion": the final `return coerce_map(R, self)`
runs with `coerce_map` never assigned and raises `UnboundLocalError`. -/
theorem coerce_unrecognized_counterexample :
    PRing.isExt rFM = true ∧
      PRing.fraction_field rFM none = sFM ∧
      PRing.implOf sFM ≠ "NTL" ∧
      PRing.precTypeOf rFM ≠ "capped-abs" ∧
      PRing.precTypeOf rFM ≠ "capped-rel" ∧
      PRing.precTypeOf rFM ≠ "floating-point" ∧
      PRing.coerce_map_from sFM rFM = CoerceAnswer.unboundLocal := by
  decide

/-- Claim C2 as amended: when the source `R` is an extension descriptor
whose fraction field is `self`, `self`'s backend is not the generic `NTL`
one and `R`'s precision tag matches none of the three recognized tags,
`_coerce_map_from_` does not fall through to "no coercion" — it raises an
unbound-local error at `return coerce_map(R, self)`. -/
theorem coerce_unrecognized_raises (self R : PRing)
    (hR : PRing.isExt R = true)
    (hf : PRing.fraction_field R none = self)
    (hi : PRing.implOf self ≠ "NTL")
    (h1 : PRing.precTypeOf R ≠ "capped-abs")
    (h2 : PRing.precTypeOf R ≠ "capped-rel")
    (h3 : PRing.precTypeOf R ≠ "floating-point") :
    PRing.coerce_map_from self R = CoerceAnswer.unboundLocal := by
  simp [PRing.coerce_map_from, hR, hf, hi, h1, h2, h3]

/-- Witness for the amended C2 at the concrete pair `(sFM, rFM)`. -/
theorem coerce_unrecognized_raises_witness :
    PRing.coerce_map_from sFM rFM = CoerceAnswer.unboundLocal :=
  coerce_unrecognized_raises sFM rFM (by decide) (by decide) (by decide)
    (by decide) (by decide) (by decide)

/-- Claim C3: `_coerce_map_from_(R)` yields a coercion (the literal `True`
or a backend map) only when `R` is an extension descriptor whose fraction
field is `self`; in that case an `NTL` backend accepts unconditionally,
and otherwise the backend coercion-map class is selected by `R`'s
precision tag among the three recognized disciplines. -/
theorem coerce_map_from_spec (self R : PRing) :
    ((PRing.coerce_map_from self R = CoerceAnswer.accepted ∨
        ∃ c, PRing.coerce_map_from self R = CoerceAnswer.coerceMap c R self) →
      PRing.isExt R = true ∧ PRing.fraction_field R none = self) ∧
    (PRing.isExt R = true → PRing.fraction_field R none = self →
      (PRing.implOf self = "NTL" →
        PRing.coerce_map_from self R = CoerceAnswer.accepted) ∧
      (PRing.implOf self ≠ "NTL" →
        (PRing.precTypeOf R = "capped-abs" →
          PRing.coerce_map_from self R =
            CoerceAnswer.coerceMap "pAdicCoercion_CA_frac_field" R self) ∧
        (PRing.precTypeOf R = "capped-rel" →
          PRing.coerce_map_from self R =
            CoerceAnswer.coerceMap "pAdicCoercion_CR_frac_field" R self) ∧
        (PRing.precTypeOf R = "floating-point" →
          PRing.coerce_map_from self R =
            CoerceAnswer.coerceMap "pAdicCoercion_FP_frac_field" R self))) := by
  constructor
  · intro h
    by_cases hR : PRing.isExt R = true
    · by_cases hf : PRing.fraction_field R none = self
      · exact ⟨hR, hf⟩
      · exfalso
        simp [PRing.coerce_map_from, hR, hf] at h
    · exfalso
      simp [PRing.coerce_map_from, hR] at h
  · intro hR hf
    constructor
    · intro hi
      simp [PRing.coerce_map_from, hR, hf, hi]
    · intro hi
      refine ⟨?_, ?_, ?_⟩ <;> intro hp <;>
        simp [PRing.coerce_map_from, hR, hf, hi, hp]

/-- A capped-relative non-field extension with the non-generic `FLINT`
backend, used to exercise the capped-relative coercion branch. -/
def rCR : PRing :=
  .ext (.base ⟨5, 5, false, "capped-rel"⟩) [0, 1] [0, 1] 5 prW "FLINT"
    "capped-rel" false "w"

/-- Witness for C3 at a concrete capped-relative pair: the fraction field
of `rCR` has the non-`NTL` backend `FLINT`, so it receives the
capped-relative backend coercion map from `rCR`. -/
theorem coerce_map_from_spec_witness :
    PRing.coerce_map_from (PRing.fraction_field rCR none) rCR =
      CoerceAnswer.coerceMap "pAdicCoercion_CR_frac_field" rCR
        (PRing.fraction_field rCR none) :=
  ((((coerce_map_from_spec (PRing.fraction_field rCR none) rCR).2
      (by decide) (by decide)).2 (by decide)).2).1 (by decide)

/-- The mode-aware printer comparison is reflexive. -/
theorem richcmpModes_refl (pr : Printer) : richcmpModes pr pr = true := by
  simp [richcmpModes]

/-- Descriptor equality is reflexive. -/
theorem eqDesc_refl (d : PRing) : PRing.eqDesc d d = true := by
  induction d with
  | base b => simp [PRing.eqDesc]
  | ext g gp em cap pr im pt f vn ih =>
      simp [PRing.eqDesc, ih, richcmpModes_refl]

/-- Counterexample to claim C1: the descriptors `dCE1` and `dCE2` (both
well formed) share the ground ring, the working modulus, the precision cap
and the printer, but have different exact moduli (`x` versus `x + 25`,
which coerce to the same working modulus over `Zp(5,2)`).  `__eq__`
compares `defining_polynomial()` with its default `exact=False`, so it
returns `True` here, while the claim — which requires equal exact moduli —
predicts `False`: the claimed biconditional fails at this pair. -/
theorem eq_exact_modulus_counterexample :
    ¬ (PRing.eqDesc dCE1 dCE2 = true ↔
        (PRing.isExt dCE2 = true ∧
          PRing.eqDesc (PRing.ground_ring dCE1) (PRing.ground_ring dCE2) = true ∧
          PRing.exactModulusOf dCE1 = PRing.exactModulusOf dCE2 ∧
          PRing.precCapOf dCE1 = PRing.precCapOf dCE2 ∧
          richcmpModes (PRing.printerOf dCE1) (PRing.printerOf dCE2) = true)) := by
  decide

/-- Claim C1 as amended: for an extension descriptor, `__eq__` returns
`True` iff the other operand is also an extension descriptor, the ground
rings are equal (under their own equality), the two working defining
polynomials (`defining_polynomial()` with its default `exact=False`, i.e.
`_given_poly`, not `_exact_modulus`) are equal, the precision caps are
equal, and the printers compare equal under the mode-aware rich
comparison. -/
theorem eq_iff_ground_given_cap_printer (self other : PRing)
    (hs : PRing.isExt self = true) :
    PRing.eqDesc self other = true ↔
      (PRing.isExt other = true ∧
        PRing.eqDesc (PRing.ground_ring self) (PRing.ground_ring other) = true ∧
        PRing.givenPolyOf self = PRing.givenPolyOf other ∧
        PRing.precCapOf self = PRing.precCapOf other ∧
        richcmpModes (PRing.printerOf self) (PRing.printerOf other) = true) := by
  cases self with
  | base b => simp [PRing.isExt] at hs
  | ext g gp em cap pr im pt f vn =>
      cases other with
      | base b2 => simp [PRing.eqDesc, PRing.isExt]
      | ext g2 gp2 em2 cap2 pr2 im2 pt2 f2 vn2 =>
          simp [PRing.eqDesc, PRing.isExt, PRing.ground_ring,
            PRing.givenPolyOf, PRing.precCapOf, PRing.printerOf,
            and_assoc]

/-- Witness for the amended C1: the biconditional instantiated at the pair
`(wExt, dCE1)` of concrete extension descriptors. -/
theorem eq_iff_ground_given_cap_printer_witness :
    PRing.isExt wExt = true ∧
      (PRing.eqDesc wExt dCE1 = true ↔
        (PRing.isExt dCE1 = true ∧
          PRing.eqDesc (PRing.ground_ring wExt) (PRing.ground_ring dCE1) = true ∧
          PRing.givenPolyOf wExt = PRing.givenPolyOf dCE1 ∧
          PRing.precCapOf wExt = PRing.precCapOf dCE1 ∧
          richcmpModes (PRing.printerOf wExt) (PRing.printerOf dCE1) = true)) :=
  ⟨by decide, eq_iff_ground_given_cap_printer wExt dCE1 (by decide)⟩

/-- The left fold of `reduce` over the comprehension terms computes the
sum of the drawn coefficients times the generator powers. -/
theorem foldl_terms_eq_specRandomSum (σ : Nat → Nat) (d : Nat) :
    ((List.range d).map (fun i => eScale (σ i) (genPow i))).foldl eAdd [] =
      PRing.specRandomSum σ d := by
  induction d with
  | zero => rfl
  | succ n ih =>
      rw [List.range_succ, List.map_append, List.foldl_append, ih]
      rfl

/-- Claim C7: `random_element()` returns exactly the sum, over `i` from
`0` to `degree() - 1`, of the `i`-th independently drawn ground-ring
element times the `i`-th power of the generator. -/
theorem random_element_spec (σ : Nat → Nat) (self : PRing) :
    PRing.random_element σ self =
      PRing.specRandomSum σ (PRing.degree self).toNat :=
  foldl_terms_eq_specRandomSum σ (PRing.degree self).toNat

/-- Claim C8: on an extension descriptor, `ground_ring_of_tower()` run
with fuel equal to the tower height succeeds with the same result as the
unbounded recursion, that result is a base (non-extension) p-adic ring,
and one unit of fuel less does not suffice — the recursion depth is
exactly the tower height. -/
theorem ground_ring_of_tower_spec (d : PRing) (hd : PRing.isExt d = true) :
    PRing.groundRingOfTowerFuel (PRing.towerHeight d) d =
        some (PRing.ground_ring_of_tower d) ∧
      PRing.isBase (PRing.ground_ring_of_tower d) = true ∧
      PRing.groundRingOfTowerFuel (PRing.towerHeight d - 1) d = none := by
  induction d with
  | base b => simp [PRing.isExt] at hd
  | ext g gp em cap pr im pt f vn ih =>
      cases g with
      | base b =>
          refine ⟨?_, ?_, ?_⟩ <;>
            simp [PRing.towerHeight, PRing.groundRingOfTowerFuel,
              PRing.ground_ring_of_tower, PRing.isBase]
      | ext g2 gp2 em2 cap2 pr2 im2 pt2 f2 vn2 =>
          obtain ⟨ih1, ih2, ih3⟩ := ih rfl
          refine ⟨?_, ?_, ?_⟩
          · simpa [PRing.towerHeight, PRing.groundRingOfTowerFuel,
              PRing.ground_ring_of_tower, PRing.isBase] using ih1
          · simpa [PRing.ground_ring_of_tower, PRing.isBase] using ih2
          · simpa [PRing.towerHeight, PRing.groundRingOfTowerFuel,
              PRing.isBase] using ih3

/-- Witness for C8 at the height-two tower `wExt2`. -/
theorem ground_ring_of_tower_spec_witness :
    PRing.isExt wExt2 = true ∧
      (PRing.groundRingOfTowerFuel (PRing.towerHeight wExt2) wExt2 =
          some (PRing.ground_ring_of_tower wExt2) ∧
        PRing.isBase (PRing.ground_ring_of_tower wExt2) = true ∧
        PRing.groundRingOfTowerFuel (PRing.towerHeight wExt2 - 1) wExt2 =
          none) :=
  ⟨by decide, ground_ring_of_tower_spec wExt2 (by decide)⟩

/-- A coefficient list whose last entry is nonzero has degree equal to its
length minus one. -/
theorem polyDegree_of_getLast (l : List Int) (c : Int)
    (h : l.getLast? = some c) (hc : c ≠ 0) :
    polyDegree l = (l.length : Int) - 1 := by
  have h2 : l.reverse.head? = some c := by
    rw [List.head?_reverse]; exact h
  cases hr : l.reverse with
  | nil => rw [hr] at h2; simp at h2
  | cons a t =>
      rw [hr] at h2
      have ha : a = c := by simpa using h2
      have hlen : t.length + 1 = l.length := by
        have := congrArg List.length hr
        simpa using this.symm
      unfold polyDegree
      rw [hr, List.dropWhile_cons]
      have : (a == 0) = false := by
        simp [ha, hc]
      rw [this]
      simp [← hlen]

/-- Claim C9: for a well-formed extension descriptor, the exact and the
working defining polynomials have the same degree (the factory invariant
`givenPoly.degree() == exactModulus.degree()`). -/
theorem defining_polynomial_degree_eq (d : PRing)
    (hd : PRing.isExt d = true) (hw : PRing.WF d = true) :
    polyDegree (PRing.defining_polynomial d true) =
      polyDegree (PRing.defining_polynomial d false) := by
  cases d with
  | base b => simp [PRing.isExt] at hd
  | ext g gp em cap pr im pt f vn =>
      simp [PRing.WF, Bool.and_eq_true, beq_iff_eq, decide_eq_true_eq] at hw
      obtain ⟨⟨⟨⟨hgp, hlast⟩, hp⟩, hcap⟩, hwg⟩ := hw
      have hq : 2 ≤ PRing.primeOf g ^ PRing.precCapOf g := by
        calc 2 ≤ PRing.primeOf g := hp
          _ = PRing.primeOf g ^ 1 := (pow_one _).symm
          _ ≤ PRing.primeOf g ^ PRing.precCapOf g :=
            Nat.pow_le_pow_right (by omega) hcap
      have hqI : (1 : Int) < ((PRing.primeOf g ^ PRing.precCapOf g : Nat) : Int) := by
        exact_mod_cast hq
      have hmod : (1 : Int) % ((PRing.primeOf g ^ PRing.precCapOf g : Nat) : Int) = 1 :=
        Int.emod_eq_of_lt (by omega) hqI
      have hgpLast : gp.getLast? = some 1 := by
        rw [hgp]
        unfold PRing.approxPoly
        rw [List.getLast?_map, hlast, Option.map_some', hmod]
      have hde : polyDegree em = (em.length : Int) - 1 :=
        polyDegree_of_getLast em 1 hlast one_ne_zero
      have hdg : polyDegree gp = (gp.length : Int) - 1 :=
        polyDegree_of_getLast gp 1 hgpLast one_ne_zero
      have hlen : gp.length = em.length := by
        rw [hgp]; unfold PRing.approxPoly; simp
      simp [PRing.defining_polynomial, PRing.exactModulusOf,
        PRing.givenPolyOf, hde, hdg, hlen]

/-- Witness for C9 at the concrete well-formed descriptor `wExt`. -/
theorem defining_polynomial_degree_eq_witness :
    PRing.isExt wExt = true ∧ PRing.WF wExt = true ∧
      polyDegree (PRing.defining_polynomial wExt true) =
        polyDegree (PRing.defining_polynomial wExt false) :=
  ⟨by decide, by decide,
   defining_polynomial_degree_eq wExt (by decide) (by decide)⟩

/-- Claim C4: for a well-formed extension descriptor, `construction()`
returns the pair of the algebraic-extension functor — capturing the exact
modulus as a one-element list, the variable name, the precision cap, the
full print-mode configuration and the implementation tag — and the base
ring, and applying the functor to the base ring yields a descriptor equal
to the original under `__eq__`. -/
theorem construction_spec (d : PRing)
    (hd : PRing.isExt d = true) (hw : PRing.WF d = true) :
    (PRing.construction d).2 = PRing.base_ring d ∧
      (PRing.construction d).1.polys = [PRing.defining_polynomial d true] ∧
      (PRing.construction d).1.names = [PRing.varNameOf d] ∧
      (PRing.construction d).1.prec = PRing.precCapOf d ∧
      (PRing.construction d).1.printMode = PRing.printerOf d ∧
      (PRing.construction d).1.implTag = PRing.implOf d ∧
      PRing.eqDesc (PRing.applyAEF (PRing.construction d).1
        (PRing.construction d).2) d = true := by
  cases d with
  | base b => simp [PRing.isExt] at hd
  | ext g gp em cap pr im pt f vn =>
      refine ⟨rfl, rfl, rfl, rfl, rfl, rfl, ?_⟩
      simp [PRing.WF, Bool.and_eq_true, beq_iff_eq, decide_eq_true_eq] at hw
      obtain ⟨⟨⟨⟨hgp, hlast⟩, hp⟩, hcap⟩, hwg⟩ := hw
      simp [PRing.construction, PRing.applyAEF, PRing.base_ring,
        PRing.eqDesc, PRing.defining_polynomial, PRing.exactModulusOf,
        PRing.precCapOf, PRing.printerOf, eqDesc_refl, richcmpModes_refl,
        hgp]

/-- Witness for C4 at the concrete well-formed descriptor `wExt`. -/
theorem construction_spec_witness :
    PRing.isExt wExt = true ∧ PRing.WF wExt = true ∧
      PRing.eqDesc (PRing.applyAEF (PRing.construction wExt).1
        (PRing.construction wExt).2) wExt = true :=
  ⟨by decide, by decide,
   (construction_spec wExt (by decide) (by decide)).2.2.2.2.2.2⟩
